import Mathlib

/-!
Verification of the Qrypto `Cipher` suite (src/qrypto/qryptocipher.h).

The header declares the configuration layer (name registries, soft-validating
setters, IV/authentication accessors) inline; those definitions below are
translated directly from the C++ source.  The implementation file defining
`Cipher::Impl` (the encrypt/decrypt engine), the name tables, the
`Qrypto::Error` enum and `validateKeyLength` is not part of the sources, so
those parts are modelled from the specification, as marked on each definition.

Strings: `QString` values are modelled as lists of UTF-16 code units
(`List Nat`); all registry names are ASCII so `Qt::CaseInsensitive`
comparison is modelled by ASCII lowercasing.  `QByteArray` values are lists
of byte values (`List Nat`).
-/

namespace Qrypto

/-- Byte sequences (QByteArray contents). -/
abbrev Bytes := List Nat

/-- QString contents as a list of code units. -/
abbrev QStr := List Nat

/-- Convert a Lean string literal to its list of code points. -/
def strL (s : String) : QStr := s.data.map Char.toNat

/-- ASCII lowercase of one code unit (models case-insensitive comparison of
the ASCII registry names). -/
def asciiLower (n : Nat) : Nat := if 65 ≤ n ∧ n ≤ 90 then n + 32 else n

/-- Case-insensitive string equality, as `QString::compare(.., Qt::CaseInsensitive) == 0`
on the ASCII registry names. -/
def ciEqb (a b : QStr) : Bool := (a.map asciiLower) == (b.map asciiLower)

/-- `QStringList::contains(s, Qt::CaseInsensitive)`. -/
def containsCI (l : List QStr) (s : QStr) : Bool := l.any (fun a => ciEqb a s)

/-- Index of the match found by the countdown loop
`for (int i = l.size(); i-- > 0; ) if (l.at(i).compare(s, CaseInsensitive) == 0) return i;`
which returns the highest matching index. -/
def rlookup (l : List QStr) (s : QStr) : Option Nat :=
  match l with
  | [] => none
  | a :: rest =>
    match rlookup rest s with
    | some i => some (i + 1)
    | none => if ciEqb a s then some 0 else none

/-- The `Cipher::Algorithm` enum from the header. -/
inductive Algorithm
  | AES
  | Blowfish
  | CAST_128
  | Camellia
  | DES_EDE3
  | IDEA
  | SEED
  | Serpent
  | Twofish
  | UnknownAlgorithm
deriving DecidableEq

/-- The `Cipher::Operation` enum from the header. -/
inductive Operation
  | CBC
  | CFB
  | CTR
  | EAX
  | ECB
  | GCM
  | OFB
  | UnknownOperation
deriving DecidableEq

/-- Modelled from the spec: the static `Cipher::AlgorithmNames` table is
defined in the missing implementation file; the spec lists the canonical
names AES, Blowfish, CAST-128, Camellia, DES-EDE3, IDEA, SEED, Serpent,
Twofish, indexed by the enum ordering. -/
def AlgorithmNames : List QStr :=
  [strL "AES", strL "Blowfish", strL "CAST-128", strL "Camellia",
   strL "DES-EDE3", strL "IDEA", strL "SEED", strL "Serpent", strL "Twofish"]

/-- Modelled from the spec: the static `Cipher::OperationCodes` table is
defined in the missing implementation file; the spec lists CBC, CFB, CTR,
EAX, ECB, GCM, OFB, indexed by the enum ordering. -/
def OperationCodes : List QStr :=
  [strL "CBC", strL "CFB", strL "CTR", strL "EAX", strL "ECB",
   strL "GCM", strL "OFB"]

/-- The C++ cast `Algorithm(i)` for an index produced by the registry scan. -/
def algOfIndex (i : Nat) : Algorithm :=
  [Algorithm.AES, Algorithm.Blowfish, Algorithm.CAST_128, Algorithm.Camellia,
   Algorithm.DES_EDE3, Algorithm.IDEA, Algorithm.SEED, Algorithm.Serpent,
   Algorithm.Twofish].getD i Algorithm.UnknownAlgorithm

/-- Numeric value of an `Algorithm` enum constant. -/
def algIdx : Algorithm → Nat
  | .AES => 0
  | .Blowfish => 1
  | .CAST_128 => 2
  | .Camellia => 3
  | .DES_EDE3 => 4
  | .IDEA => 5
  | .SEED => 6
  | .Serpent => 7
  | .Twofish => 8
  | .UnknownAlgorithm => 9

/-- The C++ cast `Operation(i)` for an index produced by the registry scan. -/
def opOfIndex (i : Nat) : Operation :=
  [Operation.CBC, Operation.CFB, Operation.CTR, Operation.EAX, Operation.ECB,
   Operation.GCM, Operation.OFB].getD i Operation.UnknownOperation

/-- Numeric value of an `Operation` enum constant. -/
def opIdx : Operation → Nat
  | .CBC => 0
  | .CFB => 1
  | .CTR => 2
  | .EAX => 3
  | .ECB => 4
  | .GCM => 5
  | .OFB => 6
  | .UnknownOperation => 7

/-- The `Cipher` class state: `m_algorithmName`, `m_operationCode`,
`m_authentication`, `m_initialVector`. -/
structure Cipher where
  algorithmName : QStr
  operationCode : QStr
  authentication : Bytes
  initialVector : Bytes
deriving DecidableEq

/-- The `Cipher(Algorithm, Operation)` constructor: looks both names up in
the registries (`AlgorithmNames.at(algorithm)`); `QByteArray` members default
to empty.  `at` on the `UnknownAlgorithm`/`UnknownOperation` index is out of
range in the C++ source, so the model is meaningful for the real enum
values only. -/
def Cipher.mk0 (a : Algorithm) (o : Operation) : Cipher :=
  ⟨AlgorithmNames.getD (algIdx a) [], OperationCodes.getD (opIdx o) [], [], []⟩

/-- `Cipher::algorithm()`: countdown scan of `AlgorithmNames` with a
case-insensitive comparison against `m_algorithmName`. -/
def Cipher.algorithm (c : Cipher) : Algorithm :=
  match rlookup AlgorithmNames c.algorithmName with
  | some i => algOfIndex i
  | none => Algorithm.UnknownAlgorithm

/-- `Cipher::operation()`: countdown scan of `OperationCodes` with a
case-insensitive comparison against `m_operationCode`. -/
def Cipher.operation (c : Cipher) : Operation :=
  match rlookup OperationCodes c.operationCode with
  | some i => opOfIndex i
  | none => Operation.UnknownOperation

/-- `Cipher::setAlgorithm(Algorithm)`: `m_algorithmName = AlgorithmNames.at(algorithm)`
(out of range at `UnknownAlgorithm` in the C++ source). -/
def Cipher.setAlgorithm (c : Cipher) (a : Algorithm) : Cipher :=
  { c with algorithmName := AlgorithmNames.getD (algIdx a) [] }

/-- `Cipher::setOperation(Operation)`: `m_operationCode = OperationCodes.at(operation)`. -/
def Cipher.setOperation (c : Cipher) (o : Operation) : Cipher :=
  { c with operationCode := OperationCodes.getD (opIdx o) [] }

/-- `Cipher::setAlgorithmName`: keep the given spelling when the registry
contains it case-insensitively, otherwise clear the field. -/
def Cipher.setAlgorithmName (c : Cipher) (s : QStr) : Cipher :=
  if containsCI AlgorithmNames s then { c with algorithmName := s }
  else { c with algorithmName := [] }

/-- `Cipher::setOperationCode`: keep the given spelling when the registry
contains it case-insensitively, otherwise clear the field. -/
def Cipher.setOperationCode (c : Cipher) (s : QStr) : Cipher :=
  if containsCI OperationCodes s then { c with operationCode := s }
  else { c with operationCode := [] }

/-- `Cipher::fullName()`: `"%1/%2"` of the two stored names. -/
def Cipher.fullName (c : Cipher) : QStr :=
  c.algorithmName ++ strL "/" ++ c.operationCode

/-- `QString::split('/')` with the default `KeepEmptyParts` behaviour
(the empty string splits to one empty segment). -/
def splitSlash : QStr → List QStr
  | [] => [[]]
  | ch :: rest =>
    match splitSlash rest with
    | h :: t => if ch = 47 then [] :: h :: t else (ch :: h) :: t
    | [] => if ch = 47 then [[], []] else [[ch]]

/-- `Cipher::setFullName`: clear both names, then, when the split yields
exactly two segments, run one loop iteration applying
`setAlgorithmName(names.takeFirst())` and `setOperationCode(names.takeLast())`. -/
def Cipher.setFullName (c : Cipher) (s : QStr) : Cipher :=
  let c0 : Cipher := { c with algorithmName := [], operationCode := [] }
  match splitSlash s with
  | [a, b] => (c0.setAlgorithmName a).setOperationCode b
  | _ => c0

/-- `Cipher::setAuthentication(QByteArray)`. -/
def Cipher.setAuthentication (c : Cipher) (a : Bytes) : Cipher :=
  { c with authentication := a }

/-- `Cipher::setInitialVector(QByteArray)`. -/
def Cipher.setInitialVector (c : Cipher) (iv : Bytes) : Cipher :=
  { c with initialVector := iv }

/-- Hex value of one byte, as Qt's digit decoder: digits, lowercase and
uppercase letters decode, everything else is invalid. -/
def hexVal (n : Nat) : Option Nat :=
  if 48 ≤ n ∧ n ≤ 57 then some (n - 48)
  else if 97 ≤ n ∧ n ≤ 102 then some (n - 97 + 10)
  else if 65 ≤ n ∧ n ≤ 70 then some (n - 65 + 10)
  else none

/-- Pair up an even-length run of hex digit values into bytes, high nibble
first. -/
def hexPairs : List Nat → Bytes
  | h :: l :: rest => (h * 16 + l) :: hexPairs rest
  | _ => []

/-- Assemble the valid digits: `QByteArray::fromHex` pairs nibbles from the
end of the input, so when the digit count is odd the leading digit becomes a
byte of its own. -/
def fromHexDigits (ds : List Nat) : Bytes :=
  if ds.length % 2 = 1 then
    match ds with
    | d :: rest => d :: hexPairs rest
    | [] => []
  else hexPairs ds

/-- `QByteArray::fromHex`: skips invalid characters, pairs the remaining hex
digits from the end of the input. -/
def fromHex (input : List Nat) : Bytes :=
  fromHexDigits (input.filterMap hexVal)

/-- `QString::toLatin1`: code units above 255 convert to the question mark. -/
def toLatin1 (s : QStr) : List Nat :=
  s.map (fun n => if n ≤ 255 then n else 63)

/-- `Cipher::setAuthentication(QString)`: decode the hex string through
`toLatin1` and `fromHex`, then store.  (A distinct Lean name for the C++
overload.) -/
def Cipher.setAuthenticationHex (c : Cipher) (s : QStr) : Cipher :=
  c.setAuthentication (fromHex (toLatin1 s))

/-- `Cipher::setInitialVector(QString)`: decode the hex string through
`toLatin1` and `fromHex`, then store. -/
def Cipher.setInitialVectorHex (c : Cipher) (s : QStr) : Cipher :=
  c.setInitialVector (fromHex (toLatin1 s))

/-- Absolute difference of two key lengths. -/
def natDist (a b : Nat) : Nat := max a b - min a b

/-- Of two candidate lengths, keep the one closer to the request, breaking a
tie toward the larger length. -/
def pickCloser (req a b : Nat) : Nat :=
  if natDist b req < natDist a req then b
  else if natDist a req < natDist b req then a
  else max a b

/-- Closest member of a discrete list of permitted lengths, ties broken
toward the larger length. -/
def closestIn (req : Nat) : List Nat → Nat
  | [] => 0
  | [a] => a
  | a :: b :: rest => pickCloser req a (closestIn req (b :: rest))

/-- Shape of an algorithm's set of valid key lengths. -/
inductive KeySpec
  | fixedLen (n : Nat)
  | discrete (l : List Nat)
  | rangeLen (lo hi : Nat)
deriving DecidableEq

/-- Modelled from the spec: the per-algorithm valid key lengths live in the
missing implementation file.  The spec fixes AES = 16/24/32, DES-EDE3 = 24
fixed and Blowfish = 4..56; the remaining algorithms follow the usual
parameters of the named ciphers (Camellia/Serpent/Twofish 16/24/32,
IDEA and SEED fixed 16, CAST-128 5..16). -/
def keySpec : Algorithm → KeySpec
  | .AES => .discrete [16, 24, 32]
  | .Blowfish => .rangeLen 4 56
  | .CAST_128 => .rangeLen 5 16
  | .Camellia => .discrete [16, 24, 32]
  | .DES_EDE3 => .fixedLen 24
  | .IDEA => .fixedLen 16
  | .SEED => .fixedLen 16
  | .Serpent => .discrete [16, 24, 32]
  | .Twofish => .discrete [16, 24, 32]
  | .UnknownAlgorithm => .fixedLen 0

/-- Whether a key length is valid under a `KeySpec`. -/
def KeySpec.acceptsB : KeySpec → Nat → Bool
  | .fixedLen n, x => x == n
  | .discrete l, x => l.contains x
  | .rangeLen lo hi, x => decide (lo ≤ x) && decide (x ≤ hi)

/-- Modelled from the spec: the key-length policy — a fixed length ignores
the request, a discrete set returns the closest permitted value with ties
toward the larger length, a range clamps the request into range. -/
def validLen : KeySpec → Nat → Nat
  | .fixedLen n, _ => n
  | .discrete l, x => closestIn x l
  | .rangeLen lo hi, x => max lo (min hi x)

/-- Modelled from the spec: `Cipher::validateKeyLength` (declared in the
header, defined in the missing implementation file) returns the nearest
valid key length for the currently configured algorithm. -/
def Cipher.validateKeyLength (c : Cipher) (keyLength : Nat) : Nat :=
  validLen (keySpec c.algorithm) keyLength

/-- Modelled from the spec: the `Qrypto::Error` taxonomy of §7 (the header
defining it is not among the sources). -/
inductive Error
  | NoError
  | ConfigurationError
  | KeyDerivationError
  | AuthenticationError
  | EncryptFailed
  | DecryptFailed
deriving DecidableEq

/-- Modelled from the spec: the KeyMaker collaborator, consumed through one
logical operation "derive n bytes of key material", which may fail; it also
carries the caller-preferred key length fed to `validateKeyLength`. -/
structure KeyMaker where
  preferredLength : Nat
  derive : Nat → Option Bytes

/-- AEAD-capable operations (EAX, GCM) versus the non-AEAD ones. -/
def isAEAD : Operation → Bool
  | .EAX => true
  | .GCM => true
  | _ => false

/-- Block size in bytes of each algorithm (the usual parameters of the named
ciphers; the primitives live outside the sources). -/
def blockSize : Algorithm → Nat
  | .AES => 16
  | .Blowfish => 8
  | .CAST_128 => 8
  | .Camellia => 16
  | .DES_EDE3 => 8
  | .IDEA => 8
  | .SEED => 16
  | .Serpent => 16
  | .Twofish => 16
  | .UnknownAlgorithm => 0

/-- Modelled from the spec: the IV length required by the configured
operation — zero-length for ECB, the conventional 12 bytes for GCM, one
block otherwise. -/
def ivLenReq (a : Algorithm) : Operation → Nat
  | .ECB => 0
  | .GCM => 12
  | _ => blockSize a

/-- Draw the fresh IV from the CSPRNG byte stream `rand`. -/
def genIV (rand : Nat → Nat) (a : Algorithm) (o : Operation) : Bytes :=
  (List.range (ivLenReq a o)).map (fun i => rand i % 256)

/-- Modelled from the spec: the interface boundary of the out-of-scope
cryptographic primitives — the keyed transform of a (algorithm, operation)
pair in the encrypt and decrypt direction, the integral AEAD tag, and the
MAC the engine computes over ciphertext and IV for non-AEAD operations. -/
structure Prim where
  transform : Algorithm → Operation → Bytes → Bytes → Bytes → Bytes
  untransform : Algorithm → Operation → Bytes → Bytes → Bytes → Bytes
  aeadTag : Algorithm → Operation → Bytes → Bytes → Bytes → Bytes
  mac : Algorithm → Operation → Bytes → Bytes → Bytes → Bytes

/-- All-zero bytes of the length of the given buffer (the wiped backing
memory of a `SequreBytes`/key buffer). -/
def wipe (b : Bytes) : Bytes := List.replicate b.length 0

/-- Step 1 of the engine: resolve algorithm and operation, failing when
either is Unknown. -/
def Cipher.resolve? (c : Cipher) : Option (Algorithm × Operation) :=
  if c.algorithm = Algorithm.UnknownAlgorithm ∨
     c.operation = Operation.UnknownOperation then none
  else some (c.algorithm, c.operation)

/-- Result of `Cipher::encrypt`: the returned error, the ciphertext output
buffer, the suite state after the call (IV and authentication are
engine-written), and the post-call backing memory of the plaintext buffer
and of the derived key buffer. -/
structure EncResult where
  error : Error
  crypt : Bytes
  suite : Cipher
  plainAfter : Bytes
  keyAfter : Bytes
deriving DecidableEq

/-- Result of `Cipher::decrypt`: the returned error, the plaintext output
buffer (populated only on success), and the post-call backing memory of the
derived key buffer. -/
structure DecResult where
  error : Error
  plain : Option Bytes
  keyAfter : Bytes
deriving DecidableEq

/-- Modelled from the spec: `Cipher::encrypt` (§4.4) — resolve the
configuration, derive a key of the validated length, generate a fresh IV
from the CSPRNG `rand` overwriting the stored one, transform the plaintext,
store the AEAD tag or the computed MAC into the authentication field, and
wipe the plaintext and key buffers on every exit path. -/
def Cipher.encrypt (P : Prim) (c : Cipher) (plain : Bytes) (km : KeyMaker)
    (rand : Nat → Nat) : EncResult :=
  match c.resolve? with
  | none => ⟨Error.ConfigurationError, [], c, wipe plain, []⟩
  | some (alg, op) =>
    match km.derive (c.validateKeyLength km.preferredLength) with
    | none => ⟨Error.KeyDerivationError, [], c, wipe plain, []⟩
    | some key =>
      let iv := genIV rand alg op
      let crypt := P.transform alg op key iv plain
      let auth := if isAEAD op then P.aeadTag alg op key iv crypt
                  else P.mac alg op key iv crypt
      ⟨Error.NoError, crypt,
       { c with initialVector := iv, authentication := auth },
       wipe plain, wipe key⟩

/-- Modelled from the spec: the AEAD primitive consumes (key, IV,
ciphertext, stored tag), verifies the tag as part of the transform, and
yields no plaintext on mismatch. -/
def aeadOpen (P : Prim) (alg : Algorithm) (op : Operation)
    (key iv crypt tag : Bytes) : Option Bytes :=
  if P.aeadTag alg op key iv crypt = tag then
    some (P.untransform alg op key iv crypt)
  else none

/-- Modelled from the spec: `Cipher::decrypt` (§4.4) — resolve the
configuration, derive the key, then for AEAD operations let the primitive
verify the stored tag, and for non-AEAD operations recompute the MAC over
the given ciphertext and the stored IV and compare it against the stored
authentication value before any decryption (verify-then-decrypt); the
plaintext output stays unpopulated on every failure and the key buffer is
wiped on exit. -/
def Cipher.decrypt (P : Prim) (c : Cipher) (crypt : Bytes)
    (km : KeyMaker) : DecResult :=
  match c.resolve? with
  | none => ⟨Error.ConfigurationError, none, []⟩
  | some (alg, op) =>
    match km.derive (c.validateKeyLength km.preferredLength) with
    | none => ⟨Error.KeyDerivationError, none, []⟩
    | some key =>
      if isAEAD op then
        match aeadOpen P alg op key c.initialVector crypt c.authentication with
        | some pt => ⟨Error.NoError, some pt, wipe key⟩
        | none => ⟨Error.AuthenticationError, none, wipe key⟩
      else
        if P.mac alg op key c.initialVector crypt = c.authentication then
          ⟨Error.NoError,
           some (P.untransform alg op key c.initialVector crypt), wipe key⟩
        else ⟨Error.AuthenticationError, none, wipe key⟩

/-- Flip bit `j` of byte `i` of a byte sequence. -/
def flipBit (bs : Bytes) (i j : Nat) : Bytes :=
  bs.set i ((bs.getD i 0) ^^^ 2 ^ j)

/-- XOR of all bytes of a list: the key schedule of the concrete sample
primitive below. -/
def xorAll (l : Bytes) : Nat := l.foldr (fun a b => a ^^^ b) 0

/-- A concrete primitive instance used to exercise the engine on closed
inputs: an XOR stream transform (an involution) together with tags that are
injective in the ciphertext for a fixed key and IV. -/
def toyPrim : Prim where
  transform := fun _ _ key iv d => d.map (fun b => b ^^^ (xorAll key ^^^ xorAll iv))
  untransform := fun _ _ key iv d => d.map (fun b => b ^^^ (xorAll key ^^^ xorAll iv))
  aeadTag := fun _ _ key iv ct => key ++ iv ++ ct
  mac := fun _ _ key iv ct => iv ++ (ct ++ key)

/-- A deterministic sample KeyMaker that always derives. -/
def km0 : KeyMaker := ⟨32, fun n => some (List.replicate n 7)⟩

/-- A sample KeyMaker that never derives. -/
def kmFail : KeyMaker := ⟨32, fun _ => none⟩

/-- A constant entropy stream. -/
def rand0 : Nat → Nat := fun _ => 5

/-- The identity entropy stream. -/
def rand1 : Nat → Nat := fun i => i

/-- The default-constructed suite, `Cipher()` = AES/GCM. -/
def defCipher : Cipher := Cipher.mk0 Algorithm.AES Operation.GCM

/-- A DES-EDE3/CBC suite for the key-length scenario. -/
def desCipher : Cipher := Cipher.mk0 Algorithm.DES_EDE3 Operation.CBC

/-! ### Helper lemmas -/

theorem wipe_all_zero (b : Bytes) : (wipe b).all (fun x => x == 0) = true := by
  simp [wipe, List.all_eq_true, List.mem_replicate]

theorem xor_two_pow_ne (b j : Nat) : b ^^^ 2 ^ j ≠ b := by
  intro h
  have h2 : b ^^^ (b ^^^ 2 ^ j) = b ^^^ b := by rw [h]
  rw [← Nat.xor_assoc, Nat.xor_self, Nat.zero_xor] at h2
  exact absurd h2 (pow_pos (by norm_num : (0:ℕ) < 2) j).ne'

theorem flipBit_ne (bs : Bytes) (i j : Nat) (h : i < bs.length) :
    flipBit bs i j ≠ bs := by
  intro heq
  have hget := congrArg (fun l : Bytes => l[i]?) heq
  simp only [flipBit] at hget
  rw [List.getElem?_set_self h, List.getElem?_eq_getElem h] at hget
  have hval : bs.getD i 0 ^^^ 2 ^ j = bs[i] := by
    simpa using hget
  rw [List.getD_eq_getElem?_getD, List.getElem?_eq_getElem h] at hval
  simp at hval
  exact xor_two_pow_ne (bs[i]) j hval

theorem xor_xor_cancel (b s : Nat) : b ^^^ s ^^^ s = b := by
  rw [Nat.xor_assoc, Nat.xor_self, Nat.xor_zero]

theorem toy_inv (a : Algorithm) (o : Operation) (k iv pt : Bytes) :
    toyPrim.untransform a o k iv (toyPrim.transform a o k iv pt) = pt := by
  simp only [toyPrim, List.map_map]
  have : ((fun b => b ^^^ (xorAll k ^^^ xorAll iv)) ∘
      fun b => b ^^^ (xorAll k ^^^ xorAll iv)) = id := by
    funext b
    simp [Function.comp, xor_xor_cancel]
  rw [this, List.map_id]

theorem toy_tagInj (a : Algorithm) (o : Operation) (k iv c1 c2 : Bytes)
    (h : toyPrim.aeadTag a o k iv c1 = toyPrim.aeadTag a o k iv c2) : c1 = c2 := by
  simp only [toyPrim] at h
  simpa [List.append_assoc] using h

theorem toy_macInj (a : Algorithm) (o : Operation) (k iv c1 c2 : Bytes)
    (h : toyPrim.mac a o k iv c1 = toyPrim.mac a o k iv c2) : c1 = c2 := by
  simp only [toyPrim] at h
  simpa using h

theorem rlookup_isSome_of_containsCI (l : List QStr) (s : QStr)
    (h : containsCI l s = true) : (rlookup l s).isSome := by
  induction l with
  | nil => simp [containsCI] at h
  | cons a rest ih =>
    cases hr : rlookup rest s with
    | some i => simp [rlookup, hr]
    | none =>
      simp only [containsCI, List.any_cons, Bool.or_eq_true] at h
      rcases h with h | h
      · simp [rlookup, hr, h]
      · have := ih (by simp [containsCI, h])
        rw [hr] at this
        simp at this

theorem rlookup_none_of_not_containsCI (l : List QStr) (s : QStr)
    (h : containsCI l s = false) : rlookup l s = none := by
  induction l with
  | nil => rfl
  | cons a rest ih =>
    simp only [containsCI, List.any_cons, Bool.or_eq_false_iff] at h
    have hrest : rlookup rest s = none := ih (by simp [containsCI, h.2])
    simp [rlookup, hrest, h.1]

theorem rlookup_lt (l : List QStr) (s : QStr) (i : Nat)
    (h : rlookup l s = some i) : i < l.length := by
  induction l generalizing i with
  | nil => simp [rlookup] at h
  | cons a rest ih =>
    cases hr : rlookup rest s with
    | some j =>
      simp only [rlookup, hr] at h
      have := ih j hr
      simp at h
      simp [← h]
      omega
    | none =>
      simp only [rlookup, hr] at h
      split at h
      · simp at h
        simp [← h]
      · simp at h

theorem rlookup_ciEq (l : List QStr) (s : QStr) (i : Nat)
    (h : rlookup l s = some i) : ciEqb (l.getD i []) s = true := by
  induction l generalizing i with
  | nil => simp [rlookup] at h
  | cons a rest ih =>
    cases hr : rlookup rest s with
    | some j =>
      simp only [rlookup, hr] at h
      simp at h
      subst h
      simpa using ih j hr
    | none =>
      simp only [rlookup, hr] at h
      split at h
      next hci =>
        simp at h
        subst h
        simpa using hci
      next => simp at h

theorem natDist_self (a : Nat) : natDist a a = 0 := by
  simp [natDist]

theorem natDist_eq_zero (a b : Nat) (h : natDist a b = 0) : a = b := by
  simp [natDist] at h
  omega

theorem pickCloser_cases (req a b : Nat) :
    pickCloser req a b = a ∨ pickCloser req a b = b := by
  unfold pickCloser
  split
  · right; rfl
  split
  · left; rfl
  rcases Nat.le_total a b with h | h
  · right; simp [Nat.max_eq_right h]
  · left; simp [Nat.max_eq_left h]

theorem closestIn_mem (req : Nat) (l : List Nat) (h : l ≠ []) :
    closestIn req l ∈ l := by
  induction l with
  | nil => exact absurd rfl h
  | cons a rest ih =>
    cases rest with
    | nil => simp [closestIn]
    | cons b t =>
      rw [closestIn]
      rcases pickCloser_cases req a (closestIn req (b :: t)) with hp | hp
      · rw [hp]; exact List.mem_cons_self a (b :: t)
      · rw [hp]
        exact List.mem_cons_of_mem a (ih (by simp))

theorem pickCloser_le_left (req a b : Nat) :
    natDist (pickCloser req a b) req ≤ natDist a req := by
  unfold pickCloser
  split
  next h => omega
  split
  next h => omega
  next h1 h2 =>
    have hab : natDist a req = natDist b req := by omega
    rcases Nat.le_total a b with h | h
    · rw [Nat.max_eq_right h]; omega
    · rw [Nat.max_eq_left h]

theorem pickCloser_le_right (req a b : Nat) :
    natDist (pickCloser req a b) req ≤ natDist b req := by
  unfold pickCloser
  split
  next h => omega
  split
  next h => omega
  next h1 h2 =>
    have hab : natDist a req = natDist b req := by omega
    rcases Nat.le_total a b with h | h
    · rw [Nat.max_eq_right h]
    · rw [Nat.max_eq_left h]; omega

theorem closestIn_minimal (req : Nat) (l : List Nat) (y : Nat) (hy : y ∈ l) :
    natDist (closestIn req l) req ≤ natDist y req := by
  induction l with
  | nil => simp at hy
  | cons a rest ih =>
    cases rest with
    | nil =>
      simp at hy
      simp [closestIn, hy]
    | cons b t =>
      rw [closestIn]
      rcases List.mem_cons.mp hy with h | h
      · subst h
        exact pickCloser_le_left req y (closestIn req (b :: t))
      · exact le_trans (pickCloser_le_right req a (closestIn req (b :: t))) (ih h)

theorem pickCloser_tie (req a b y : Nat) (hy : y = a ∨ y = b)
    (h : natDist y req = natDist (pickCloser req a b) req) :
    y ≤ pickCloser req a b := by
  unfold pickCloser at h ⊢
  by_cases h1 : natDist b req < natDist a req
  · simp only [if_pos h1] at h ⊢
    rcases hy with rfl | rfl <;> omega
  · simp only [if_neg h1] at h ⊢
    by_cases h2 : natDist a req < natDist b req
    · simp only [if_pos h2] at h ⊢
      rcases hy with rfl | rfl <;> omega
    · simp only [if_neg h2] at h ⊢
      rcases hy with rfl | rfl
      · exact Nat.le_max_left y b
      · exact Nat.le_max_right a y

theorem closestIn_tie_ge (req : Nat) (l : List Nat) (y : Nat) (hy : y ∈ l)
    (h : natDist y req = natDist (closestIn req l) req) :
    y ≤ closestIn req l := by
  induction l with
  | nil => simp at hy
  | cons a rest ih =>
    cases rest with
    | nil =>
      simp at hy
      subst hy
      simp [closestIn]
    | cons b t =>
      rw [closestIn] at h ⊢
      rcases List.mem_cons.mp hy with hya | hyr
      · exact pickCloser_tie req a (closestIn req (b :: t)) y (Or.inl hya) h
      · have hminr := closestIn_minimal req (b :: t) y hyr
        have hpr := pickCloser_le_right req a (closestIn req (b :: t))
        have h1 := ih hyr (by omega)
        have h2 := pickCloser_tie req a (closestIn req (b :: t))
          (closestIn req (b :: t)) (Or.inr rfl) (by omega)
        omega

theorem closestIn_self (x : Nat) (l : List Nat) (hx : x ∈ l) :
    closestIn x l = x := by
  have h1 := closestIn_minimal x l x hx
  rw [natDist_self] at h1
  exact natDist_eq_zero _ _ (Nat.le_zero.mp h1)

theorem validLen_accepts (ks : KeySpec) (x : Nat)
    (hok : match ks with
           | .fixedLen _ => True
           | .discrete l => l ≠ []
           | .rangeLen lo hi => lo ≤ hi) :
    ks.acceptsB (validLen ks x) = true := by
  cases ks with
  | fixedLen n => simp [KeySpec.acceptsB, validLen]
  | discrete l =>
    simp only [KeySpec.acceptsB, validLen, List.contains_iff_exists_mem_beq]
    exact ⟨closestIn x l, closestIn_mem x l hok, by simp⟩
  | rangeLen lo hi =>
    have hok' : lo ≤ hi := hok
    simp only [KeySpec.acceptsB, validLen, Bool.and_eq_true, decide_eq_true_eq]
    omega

theorem validLen_idem (ks : KeySpec) (x : Nat)
    (hok : match ks with
           | .fixedLen _ => True
           | .discrete l => l ≠ []
           | .rangeLen lo hi => lo ≤ hi) :
    validLen ks (validLen ks x) = validLen ks x := by
  cases ks with
  | fixedLen n => rfl
  | discrete l =>
    simp only [validLen]
    exact closestIn_self _ l (closestIn_mem x l hok)
  | rangeLen lo hi =>
    simp only [validLen]
    omega

theorem decrypt_fail_plain_none (P : Prim) (c : Cipher) (ct : Bytes)
    (km : KeyMaker) (h : (Cipher.decrypt P c ct km).error ≠ Error.NoError) :
    (Cipher.decrypt P c ct km).plain = none := by
  cases hres : c.resolve? with
  | none => simp [Cipher.decrypt, hres]
  | some pair =>
    obtain ⟨alg, op⟩ := pair
    cases hkey : km.derive (c.validateKeyLength km.preferredLength) with
    | none => simp [Cipher.decrypt, hres, hkey]
    | some key =>
      by_cases hA : isAEAD op
      · cases hae : aeadOpen P alg op key c.initialVector ct c.authentication with
        | some pt => exact absurd (by simp [Cipher.decrypt, hres, hkey, hA, hae]) h
        | none => simp [Cipher.decrypt, hres, hkey, hA, hae]
      · by_cases hm : P.mac alg op key c.initialVector ct = c.authentication
        · exact absurd (by simp [Cipher.decrypt, hres, hkey, hA, hm]) h
        · simp [Cipher.decrypt, hres, hkey, hA, hm]

/-! ### Claim theorems -/

theorem encrypt_success_shape (P : Prim) (c : Cipher) (plain : Bytes)
    (km : KeyMaker) (rand : Nat → Nat) (alg : Algorithm) (op : Operation)
    (key : Bytes) (hres : c.resolve? = some (alg, op))
    (hkey : km.derive (c.validateKeyLength km.preferredLength) = some key) :
    Cipher.encrypt P c plain km rand =
      ⟨Error.NoError,
       P.transform alg op key (genIV rand alg op) plain,
       { c with initialVector := genIV rand alg op,
                authentication :=
                  if isAEAD op then
                    P.aeadTag alg op key (genIV rand alg op)
                      (P.transform alg op key (genIV rand alg op) plain)
                  else
                    P.mac alg op key (genIV rand alg op)
                      (P.transform alg op key (genIV rand alg op) plain) },
       wipe plain, wipe key⟩ := by
  simp [Cipher.encrypt, hres, hkey]

theorem encrypt_error_cases (P : Prim) (c : Cipher) (plain : Bytes)
    (km : KeyMaker) (rand : Nat → Nat)
    (h : (Cipher.encrypt P c plain km rand).error = Error.NoError) :
    ∃ alg op key, c.resolve? = some (alg, op) ∧
      km.derive (c.validateKeyLength km.preferredLength) = some key := by
  cases hres : c.resolve? with
  | none => simp [Cipher.encrypt, hres] at h
  | some pair =>
    obtain ⟨alg, op⟩ := pair
    cases hkey : km.derive (c.validateKeyLength km.preferredLength) with
    | none => simp [Cipher.encrypt, hres, hkey] at h
    | some key => exact ⟨alg, op, key, rfl, rfl⟩

theorem resolve_update_iv_auth (c : Cipher) (iv au : Bytes) :
    (({ c with initialVector := iv, authentication := au } : Cipher).resolve? =
      c.resolve?) ∧
    (∀ n, ({ c with initialVector := iv, authentication := au } : Cipher
      ).validateKeyLength n = c.validateKeyLength n) :=
  ⟨rfl, fun _ => rfl⟩

theorem decrypt_success_shape (P : Prim) (c : Cipher) (ct : Bytes)
    (km : KeyMaker) (alg : Algorithm) (op : Operation) (key : Bytes)
    (hres : c.resolve? = some (alg, op))
    (hkey : km.derive (c.validateKeyLength km.preferredLength) = some key)
    (hauth : c.authentication =
      (if isAEAD op then P.aeadTag alg op key c.initialVector ct
       else P.mac alg op key c.initialVector ct)) :
    Cipher.decrypt P c ct km =
      ⟨Error.NoError, some (P.untransform alg op key c.initialVector ct),
       wipe key⟩ := by
  by_cases hA : isAEAD op = true
  · have hauth' : c.authentication = P.aeadTag alg op key c.initialVector ct := by
      simpa [hA] using hauth
    simp [Cipher.decrypt, hres, hkey, hA, aeadOpen, hauth']
  · have hauth' : c.authentication = P.mac alg op key c.initialVector ct := by
      simpa [hA] using hauth
    simp [Cipher.decrypt, hres, hkey, hA, hauth']

theorem decrypt_auth_mismatch (P : Prim) (c : Cipher) (ct : Bytes)
    (km : KeyMaker) (alg : Algorithm) (op : Operation) (key : Bytes)
    (hres : c.resolve? = some (alg, op))
    (hkey : km.derive (c.validateKeyLength km.preferredLength) = some key)
    (hne : (if isAEAD op then P.aeadTag alg op key c.initialVector ct
            else P.mac alg op key c.initialVector ct) ≠ c.authentication) :
    Cipher.decrypt P c ct km = ⟨Error.AuthenticationError, none, wipe key⟩ := by
  by_cases hA : isAEAD op = true
  · have hne' : P.aeadTag alg op key c.initialVector ct ≠ c.authentication := by
      simpa [hA] using hne
    simp [Cipher.decrypt, hres, hkey, hA, aeadOpen, hne']
  · have hne' : P.mac alg op key c.initialVector ct ≠ c.authentication := by
      simpa [hA] using hne
    simp [Cipher.decrypt, hres, hkey, hA, hne']

/-- C1: whenever `encrypt` succeeds, `decrypt` run on the same suite with
the produced ciphertext, the same KeyMaker and the persisted IV and
authentication value returns the original plaintext, for every primitive
family whose decrypt transform inverts its encrypt transform. -/
theorem C1_round_trip (P : Prim)
    (hinv : ∀ a o k iv pt, P.untransform a o k iv (P.transform a o k iv pt) = pt)
    (c : Cipher) (plain : Bytes) (km : KeyMaker) (rand : Nat → Nat)
    (henc : (Cipher.encrypt P c plain km rand).error = Error.NoError) :
    (Cipher.decrypt P (Cipher.encrypt P c plain km rand).suite
      (Cipher.encrypt P c plain km rand).crypt km).error = Error.NoError ∧
    (Cipher.decrypt P (Cipher.encrypt P c plain km rand).suite
      (Cipher.encrypt P c plain km rand).crypt km).plain = some plain := by
  obtain ⟨alg, op, key, hres, hkey⟩ := encrypt_error_cases P c plain km rand henc
  have hE := encrypt_success_shape P c plain km rand alg op key hres hkey
  have hres' : (Cipher.encrypt P c plain km rand).suite.resolve? =
      some (alg, op) := by
    rw [hE]; exact hres
  have hkey' : km.derive ((Cipher.encrypt P c plain km
      rand).suite.validateKeyLength km.preferredLength) = some key := by
    rw [hE]; exact hkey
  have hauth' : (Cipher.encrypt P c plain km rand).suite.authentication =
      (if isAEAD op then
        P.aeadTag alg op key
          (Cipher.encrypt P c plain km rand).suite.initialVector
          (Cipher.encrypt P c plain km rand).crypt
       else
        P.mac alg op key
          (Cipher.encrypt P c plain km rand).suite.initialVector
          (Cipher.encrypt P c plain km rand).crypt) := by
    rw [hE]
  rw [decrypt_success_shape P _ _ km alg op key hres' hkey' hauth']
  refine ⟨rfl, congrArg some ?_⟩
  rw [hE]
  exact hinv alg op key (genIV rand alg op) plain

/-- C1 witness: a concrete AES/GCM round trip through the sample primitive. -/
theorem C1_round_trip_witness :
    (Cipher.decrypt toyPrim
      (Cipher.encrypt toyPrim defCipher [104, 105] km0 rand1).suite
      (Cipher.encrypt toyPrim defCipher [104, 105] km0 rand1).crypt
      km0).plain = some [104, 105] :=
  (C1_round_trip toyPrim toy_inv defCipher [104, 105] km0 rand1 (by decide)).2

/-- C2: after a successful `encrypt`, flipping any bit of any byte of the
ciphertext, or of the stored authentication value, makes `decrypt` fail
with `AuthenticationError` and leave the plaintext output unpopulated —
for AEAD and non-AEAD operations alike, for every primitive family whose
tag and MAC are injective in the ciphertext at a fixed key and IV; and on
any decrypt failure whatsoever the plaintext output is `none`. -/
theorem C2_tampering (P : Prim)
    (htag : ∀ a o k iv c1 c2,
      P.aeadTag a o k iv c1 = P.aeadTag a o k iv c2 → c1 = c2)
    (hmac : ∀ a o k iv c1 c2,
      P.mac a o k iv c1 = P.mac a o k iv c2 → c1 = c2)
    (c : Cipher) (plain : Bytes) (km : KeyMaker) (rand : Nat → Nat)
    (henc : (Cipher.encrypt P c plain km rand).error = Error.NoError) :
    (∀ i j, i < (Cipher.encrypt P c plain km rand).crypt.length →
      (Cipher.decrypt P (Cipher.encrypt P c plain km rand).suite
        (flipBit (Cipher.encrypt P c plain km rand).crypt i j) km).error =
        Error.AuthenticationError ∧
      (Cipher.decrypt P (Cipher.encrypt P c plain km rand).suite
        (flipBit (Cipher.encrypt P c plain km rand).crypt i j) km).plain =
        none) ∧
    (∀ i j,
      i < (Cipher.encrypt P c plain km rand).suite.authentication.length →
      (Cipher.decrypt P
        ((Cipher.encrypt P c plain km rand).suite.setAuthentication
          (flipBit (Cipher.encrypt P c plain km rand).suite.authentication i j))
        (Cipher.encrypt P c plain km rand).crypt km).error =
        Error.AuthenticationError ∧
      (Cipher.decrypt P
        ((Cipher.encrypt P c plain km rand).suite.setAuthentication
          (flipBit (Cipher.encrypt P c plain km rand).suite.authentication i j))
        (Cipher.encrypt P c plain km rand).crypt km).plain = none) ∧
    (∀ (c' : Cipher) (ct' : Bytes) (km' : KeyMaker),
      (Cipher.decrypt P c' ct' km').error ≠ Error.NoError →
      (Cipher.decrypt P c' ct' km').plain = none) := by
  obtain ⟨alg, op, key, hres, hkey⟩ := encrypt_error_cases P c plain km rand henc
  have hE := encrypt_success_shape P c plain km rand alg op key hres hkey
  have hres' : (Cipher.encrypt P c plain km rand).suite.resolve? =
      some (alg, op) := by
    rw [hE]; exact hres
  have hkey' : km.derive ((Cipher.encrypt P c plain km
      rand).suite.validateKeyLength km.preferredLength) = some key := by
    rw [hE]; exact hkey
  refine ⟨?_, ?_, fun c' ct' km' h => decrypt_fail_plain_none P c' ct' km' h⟩
  · intro i j hi
    have hi2 : i < (P.transform alg op key (genIV rand alg op) plain).length := by
      rw [hE] at hi; exact hi
    have hne : (if isAEAD op then
          P.aeadTag alg op key (Cipher.encrypt P c plain km
            rand).suite.initialVector
            (flipBit (Cipher.encrypt P c plain km rand).crypt i j)
        else
          P.mac alg op key (Cipher.encrypt P c plain km rand).suite.initialVector
            (flipBit (Cipher.encrypt P c plain km rand).crypt i j)) ≠
        (Cipher.encrypt P c plain km rand).suite.authentication := by
      intro heq
      have heq2 : (if isAEAD op then
            P.aeadTag alg op key (genIV rand alg op)
              (flipBit (P.transform alg op key (genIV rand alg op) plain) i j)
          else
            P.mac alg op key (genIV rand alg op)
              (flipBit (P.transform alg op key (genIV rand alg op) plain) i j)) =
          (if isAEAD op then
            P.aeadTag alg op key (genIV rand alg op)
              (P.transform alg op key (genIV rand alg op) plain)
          else
            P.mac alg op key (genIV rand alg op)
              (P.transform alg op key (genIV rand alg op) plain)) := by
        rw [hE] at heq; exact heq
      by_cases hA : isAEAD op = true
      · rw [if_pos hA, if_pos hA] at heq2
        exact flipBit_ne _ i j hi2
          (htag alg op key (genIV rand alg op) _ _ heq2)
      · rw [if_neg hA, if_neg hA] at heq2
        exact flipBit_ne _ i j hi2
          (hmac alg op key (genIV rand alg op) _ _ heq2)
    rw [decrypt_auth_mismatch P _
      (flipBit (Cipher.encrypt P c plain km rand).crypt i j) km alg op key
      hres' hkey' hne]
    exact ⟨rfl, rfl⟩
  · intro i j hi
    have hi2 : i < (if isAEAD op then
          P.aeadTag alg op key (genIV rand alg op)
            (P.transform alg op key (genIV rand alg op) plain)
        else
          P.mac alg op key (genIV rand alg op)
            (P.transform alg op key (genIV rand alg op) plain)).length := by
      rw [hE] at hi; exact hi
    have hres2 : ((Cipher.encrypt P c plain km rand).suite.setAuthentication
        (flipBit (Cipher.encrypt P c plain km rand).suite.authentication i j)
        ).resolve? = some (alg, op) := hres'
    have hkey2 : km.derive (((Cipher.encrypt P c plain km
        rand).suite.setAuthentication
        (flipBit (Cipher.encrypt P c plain km rand).suite.authentication i j)
        ).validateKeyLength km.preferredLength) = some key := hkey'
    have hne : (if isAEAD op then
          P.aeadTag alg op key
            ((Cipher.encrypt P c plain km rand).suite.setAuthentication
              (flipBit (Cipher.encrypt P c plain km
                rand).suite.authentication i j)).initialVector
            (Cipher.encrypt P c plain km rand).crypt
        else
          P.mac alg op key
            ((Cipher.encrypt P c plain km rand).suite.setAuthentication
              (flipBit (Cipher.encrypt P c plain km
                rand).suite.authentication i j)).initialVector
            (Cipher.encrypt P c plain km rand).crypt) ≠
        ((Cipher.encrypt P c plain km rand).suite.setAuthentication
          (flipBit (Cipher.encrypt P c plain km
            rand).suite.authentication i j)).authentication := by
      intro heq
      have heq2 : (if isAEAD op then
            P.aeadTag alg op key (genIV rand alg op)
              (P.transform alg op key (genIV rand alg op) plain)
          else
            P.mac alg op key (genIV rand alg op)
              (P.transform alg op key (genIV rand alg op) plain)) =
          flipBit (if isAEAD op then
            P.aeadTag alg op key (genIV rand alg op)
              (P.transform alg op key (genIV rand alg op) plain)
          else
            P.mac alg op key (genIV rand alg op)
              (P.transform alg op key (genIV rand alg op) plain)) i j := by
        rw [hE] at heq; exact heq
      exact flipBit_ne _ i j hi2 heq2.symm
    rw [decrypt_auth_mismatch P _
      (Cipher.encrypt P c plain km rand).crypt km alg op key hres2 hkey2 hne]
    exact ⟨rfl, rfl⟩

/-- C2 witness: a concrete tampered AES/GCM decryption through the sample
primitive — flipping the low bit of the first ciphertext byte and of the
first authentication byte. -/
theorem C2_tampering_witness :
    (Cipher.decrypt toyPrim
      (Cipher.encrypt toyPrim defCipher [104, 105] km0 rand1).suite
      (flipBit (Cipher.encrypt toyPrim defCipher [104, 105] km0 rand1).crypt 0 0)
      km0).error = Error.AuthenticationError ∧
    (Cipher.decrypt toyPrim
      ((Cipher.encrypt toyPrim defCipher [104, 105] km0 rand1).suite.setAuthentication
        (flipBit (Cipher.encrypt toyPrim defCipher [104, 105] km0
          rand1).suite.authentication 0 0))
      (Cipher.encrypt toyPrim defCipher [104, 105] km0 rand1).crypt km0).plain =
      none := by
  have h := C2_tampering toyPrim toy_tagInj toy_macInj defCipher [104, 105]
    km0 rand1 (by decide)
  exact ⟨(h.1 0 0 (by decide)).1, (h.2.1 0 0 (by decide)).2⟩

/-- C3: after `setAlgorithmName` with a string matching no registry name,
`algorithmName()` is empty and `algorithm()` is `UnknownAlgorithm`; and any
`encrypt` or `decrypt` on a suite whose algorithm or operation resolves to
Unknown returns `ConfigurationError` with a result record that depends on no
primitive, key maker or randomness — no cryptographic work is performed. -/
theorem C3_soft_validation (c : Cipher) (s : QStr)
    (h : containsCI AlgorithmNames s = false) :
    (c.setAlgorithmName s).algorithmName = [] ∧
    (c.setAlgorithmName s).algorithm = Algorithm.UnknownAlgorithm ∧
    (∀ (c' : Cipher) (P : Prim) (plain : Bytes) (km : KeyMaker)
        (rand : Nat → Nat) (ct : Bytes), Cipher.resolve? c' = none →
      Cipher.encrypt P c' plain km rand =
        ⟨Error.ConfigurationError, [], c', wipe plain, []⟩ ∧
      Cipher.decrypt P c' ct km = ⟨Error.ConfigurationError, none, []⟩) ∧
    (∀ c' : Cipher, c'.algorithm = Algorithm.UnknownAlgorithm ∨
        c'.operation = Operation.UnknownOperation →
      Cipher.resolve? c' = none) := by
  have h1 : (c.setAlgorithmName s).algorithmName = [] := by
    simp [Cipher.setAlgorithmName, h]
  refine ⟨h1, ?_, ?_, ?_⟩
  · rw [Cipher.algorithm, h1]
    rfl
  · intro c' P plain km rand ct hres
    exact ⟨by simp [Cipher.encrypt, hres], by simp [Cipher.decrypt, hres]⟩
  · intro c' hc
    simp only [Cipher.resolve?]
    rw [if_pos hc]

/-- C3 witness: the concrete scenario `setAlgorithmName "not-a-cipher"` on
the default suite, followed by an `encrypt` attempt. -/
theorem C3_soft_validation_witness :
    (defCipher.setAlgorithmName (strL "not-a-cipher")).algorithmName = [] ∧
    (defCipher.setAlgorithmName (strL "not-a-cipher")).algorithm =
      Algorithm.UnknownAlgorithm ∧
    (Cipher.encrypt toyPrim (defCipher.setAlgorithmName (strL "not-a-cipher"))
      [1, 2] km0 rand0).error = Error.ConfigurationError := by
  have h := C3_soft_validation defCipher (strL "not-a-cipher") (by decide)
  refine ⟨h.1, h.2.1, ?_⟩
  have hres := h.2.2.2 (defCipher.setAlgorithmName (strL "not-a-cipher"))
    (Or.inl h.2.1)
  rw [(h.2.2.1 _ toyPrim [1, 2] km0 rand0 [] hres).1]

/-- C5: on every exit path of `encrypt` the plaintext buffer's backing
memory is zeroed to its original length, and the derived key buffer ends
all-zero on every exit path of both `encrypt` and `decrypt`. -/
theorem C5_wipe_on_exit (P : Prim) (c : Cipher) (plain ct : Bytes)
    (km : KeyMaker) (rand : Nat → Nat) :
    (Cipher.encrypt P c plain km rand).plainAfter =
      List.replicate plain.length 0 ∧
    ((Cipher.encrypt P c plain km rand).keyAfter.all (fun b => b == 0)) = true ∧
    ((Cipher.decrypt P c ct km).keyAfter.all (fun b => b == 0)) = true := by
  refine ⟨?_, ?_, ?_⟩
  · cases hres : c.resolve? with
    | none => simp [Cipher.encrypt, hres, wipe]
    | some pair =>
      obtain ⟨alg, op⟩ := pair
      cases hkey : km.derive (c.validateKeyLength km.preferredLength) with
      | none => simp [Cipher.encrypt, hres, hkey, wipe]
      | some key => simp [Cipher.encrypt, hres, hkey, wipe]
  · cases hres : c.resolve? with
    | none => simp [Cipher.encrypt, hres]
    | some pair =>
      obtain ⟨alg, op⟩ := pair
      cases hkey : km.derive (c.validateKeyLength km.preferredLength) with
      | none => simp [Cipher.encrypt, hres, hkey]
      | some key =>
        simp only [Cipher.encrypt, hres, hkey]
        exact wipe_all_zero key
  · cases hres : c.resolve? with
    | none => simp [Cipher.decrypt, hres]
    | some pair =>
      obtain ⟨alg, op⟩ := pair
      cases hkey : km.derive (c.validateKeyLength km.preferredLength) with
      | none => simp [Cipher.decrypt, hres, hkey]
      | some key =>
        by_cases hA : isAEAD op = true
        · cases hae : aeadOpen P alg op key c.initialVector ct c.authentication with
          | some pt =>
            simpa [Cipher.decrypt, hres, hkey, hA, hae] using wipe_all_zero key
          | none =>
            simpa [Cipher.decrypt, hres, hkey, hA, hae] using wipe_all_zero key
        · by_cases hm : P.mac alg op key c.initialVector ct = c.authentication
          · simpa [Cipher.decrypt, hres, hkey, hA, hm] using wipe_all_zero key
          · simpa [Cipher.decrypt, hres, hkey, hA, hm] using wipe_all_zero key

/-- C6: `validateKeyLength` always returns an accepted length, is
idempotent, ignores the request for fixed-length algorithms, picks the
closest discrete value with ties broken toward the larger length, clamps
range algorithms, and in particular returns 24 for DES-EDE3 at request 10. -/
theorem C6_validateKeyLength_policy (c : Cipher) (x : Nat)
    (h : c.algorithm ≠ Algorithm.UnknownAlgorithm) :
    (keySpec c.algorithm).acceptsB (c.validateKeyLength x) = true ∧
    c.validateKeyLength (c.validateKeyLength x) = c.validateKeyLength x ∧
    (∀ n, keySpec c.algorithm = KeySpec.fixedLen n →
      c.validateKeyLength x = n) ∧
    (∀ l, keySpec c.algorithm = KeySpec.discrete l →
      ∀ y ∈ l, natDist (c.validateKeyLength x) x ≤ natDist y x ∧
        (natDist y x = natDist (c.validateKeyLength x) x →
          y ≤ c.validateKeyLength x)) ∧
    (∀ lo hi, keySpec c.algorithm = KeySpec.rangeLen lo hi →
      c.validateKeyLength x = max lo (min hi x)) ∧
    desCipher.validateKeyLength 10 = 24 := by
  have hok : match keySpec c.algorithm with
      | .fixedLen _ => True
      | .discrete l => l ≠ []
      | .rangeLen lo hi => lo ≤ hi := by
    cases c.algorithm <;> simp [keySpec]
  refine ⟨validLen_accepts _ x hok, validLen_idem _ x hok, ?_, ?_, ?_, by decide⟩
  · intro n hn
    simp [Cipher.validateKeyLength, hn, validLen]
  · intro l hl y hy
    constructor
    · simpa [Cipher.validateKeyLength, hl, validLen] using
        closestIn_minimal x l y hy
    · intro hd
      simpa [Cipher.validateKeyLength, hl, validLen] using
        closestIn_tie_ge x l y hy
          (by simpa [Cipher.validateKeyLength, hl, validLen] using hd)
  · intro lo hi hr
    simp [Cipher.validateKeyLength, hr, validLen]

/-- C6 witness: the DES-EDE3/CBC suite at requested length 10. -/
theorem C6_validateKeyLength_policy_witness :
    (keySpec desCipher.algorithm).acceptsB (desCipher.validateKeyLength 10) =
      true ∧
    desCipher.validateKeyLength 10 = 24 := by
  have h := C6_validateKeyLength_policy desCipher 10 (by decide)
  exact ⟨h.1, h.2.2.2.2.2⟩

theorem genIV_length (rand : Nat → Nat) (a : Algorithm) (o : Operation) :
    (genIV rand a o).length = ivLenReq a o := by
  simp [genIV]

theorem genIV_ne (rand rand' : Nat → Nat) (a : Algorithm) (o : Operation)
    (i : Nat) (hi : i < ivLenReq a o) (hne : rand i % 256 ≠ rand' i % 256) :
    genIV rand a o ≠ genIV rand' a o := by
  intro h
  have h2 := congrArg (fun l : Bytes => l[i]?) h
  simp only [genIV, List.getElem?_map] at h2
  rw [List.getElem?_range hi] at h2
  simp at h2
  exact hne h2

/-- C4 counterexample: two successive `encrypt` calls on the same suite with
the same KeyMaker, when the entropy source returns the same bytes, both
succeed and store the very same IV — so "two encrypt calls with the same
suite and the same key never produce the same IV" does not hold
unconditionally. -/
theorem C4_counterexample :
    (Cipher.encrypt toyPrim defCipher [1, 2] km0 rand0).error =
      Error.NoError ∧
    (Cipher.encrypt toyPrim
      (Cipher.encrypt toyPrim defCipher [1, 2] km0 rand0).suite [1, 2] km0
      rand0).error = Error.NoError ∧
    (Cipher.encrypt toyPrim defCipher [1, 2] km0 rand0).suite.initialVector =
      (Cipher.encrypt toyPrim
        (Cipher.encrypt toyPrim defCipher [1, 2] km0 rand0).suite [1, 2] km0
        rand0).suite.initialVector := by decide

/-- C4 (amended): every successful `encrypt` stores the IV freshly drawn
from the entropy source, of the length the operation requires (zero for
ECB), overwriting whatever IV was stored before; two calls produce distinct
IVs whenever the entropy bytes differ somewhere below the IV length. -/
theorem C4_iv_freshness (P : Prim) (c : Cipher) (plain : Bytes)
    (km : KeyMaker) (rand : Nat → Nat) (alg : Algorithm) (op : Operation)
    (key : Bytes) (hres : c.resolve? = some (alg, op))
    (hkey : km.derive (c.validateKeyLength km.preferredLength) = some key) :
    (Cipher.encrypt P c plain km rand).suite.initialVector =
      genIV rand alg op ∧
    (∀ iv0, (Cipher.encrypt P (c.setInitialVector iv0) plain km
      rand).suite.initialVector = genIV rand alg op) ∧
    (genIV rand alg op).length = ivLenReq alg op ∧
    ivLenReq alg Operation.ECB = 0 ∧
    (∀ (rand' : Nat → Nat) i, i < ivLenReq alg op →
      rand i % 256 ≠ rand' i % 256 →
      genIV rand alg op ≠ genIV rand' alg op) := by
  refine ⟨?_, ?_, genIV_length rand alg op, rfl,
    fun rand' i hi hne => genIV_ne rand rand' alg op i hi hne⟩
  · rw [encrypt_success_shape P c plain km rand alg op key hres hkey]
  · intro iv0
    have hres2 : (c.setInitialVector iv0).resolve? = some (alg, op) := hres
    have hkey2 : km.derive ((c.setInitialVector iv0).validateKeyLength
        km.preferredLength) = some key := hkey
    rw [encrypt_success_shape P (c.setInitialVector iv0) plain km rand alg op
      key hres2 hkey2]

/-- C4 witness: the amended statement at the default AES/GCM suite, with two
concrete entropy streams differing in the first byte. -/
theorem C4_iv_freshness_witness :
    (Cipher.encrypt toyPrim defCipher [1] km0 rand0).suite.initialVector =
      genIV rand0 Algorithm.AES Operation.GCM ∧
    ivLenReq Algorithm.AES Operation.ECB = 0 ∧
    genIV rand0 Algorithm.AES Operation.GCM ≠
      genIV rand1 Algorithm.AES Operation.GCM := by
  have h := C4_iv_freshness toyPrim defCipher [1] km0 rand0 Algorithm.AES
    Operation.GCM (List.replicate 32 7) (by decide) (by decide)
  exact ⟨h.1, h.2.2.2.1, h.2.2.2.2 rand1 0 (by decide) (by decide)⟩

theorem setAlgorithmName_name (c : Cipher) (s : QStr) :
    (c.setAlgorithmName s).algorithmName =
      (if containsCI AlgorithmNames s then s else []) := by
  unfold Cipher.setAlgorithmName
  split <;> simp_all

theorem setOperationCode_code (c : Cipher) (s : QStr) :
    (c.setOperationCode s).operationCode =
      (if containsCI OperationCodes s then s else []) := by
  unfold Cipher.setOperationCode
  split <;> simp_all

theorem setAlgorithmName_frame (c : Cipher) (s : QStr) :
    (c.setAlgorithmName s).operationCode = c.operationCode ∧
    (c.setAlgorithmName s).authentication = c.authentication ∧
    (c.setAlgorithmName s).initialVector = c.initialVector := by
  unfold Cipher.setAlgorithmName
  split <;> exact ⟨rfl, rfl, rfl⟩

theorem setOperationCode_frame (c : Cipher) (s : QStr) :
    (c.setOperationCode s).algorithmName = c.algorithmName ∧
    (c.setOperationCode s).authentication = c.authentication ∧
    (c.setOperationCode s).initialVector = c.initialVector := by
  unfold Cipher.setOperationCode
  split <;> exact ⟨rfl, rfl, rfl⟩

/-- C7 counterexample: `setFullName "AES/garbage"` splits into exactly two
segments whose second half is unrecognized, yet the algorithm-name field
ends up holding "AES", not the empty string — the two fields are not both
cleared when only one half fails to resolve. -/
theorem C7_counterexample :
    splitSlash (strL "AES/garbage") = [strL "AES", strL "garbage"] ∧
    containsCI OperationCodes (strL "garbage") = false ∧
    (defCipher.setFullName (strL "AES/garbage")).algorithmName = strL "AES" ∧
    strL "AES" ≠ [] := by decide

/-- C7 (amended): `setFullName` splits on a slash and requires exactly two
segments; any other shape clears both name fields; with exactly two
segments each half goes through its own soft-validation setter
independently, so an unrecognized half clears only its own field while a
recognized other half is kept. -/
theorem C7_setFullName (c : Cipher) (s : QStr) :
    ((splitSlash s).length ≠ 2 →
      Cipher.setFullName c s =
        { c with algorithmName := [], operationCode := [] }) ∧
    (∀ a b, splitSlash s = [a, b] →
      (Cipher.setFullName c s).algorithmName =
        (if containsCI AlgorithmNames a then a else []) ∧
      (Cipher.setFullName c s).operationCode =
        (if containsCI OperationCodes b then b else []) ∧
      (Cipher.setFullName c s).authentication = c.authentication ∧
      (Cipher.setFullName c s).initialVector = c.initialVector) := by
  constructor
  · intro hlen
    rcases hsp : splitSlash s with _ | ⟨x, _ | ⟨y, _ | ⟨z, t⟩⟩⟩
    · simp [Cipher.setFullName, hsp]
    · simp [Cipher.setFullName, hsp]
    · exact absurd (by rw [hsp]; rfl) hlen
    · simp [Cipher.setFullName, hsp]
  · intro a b hsp
    have hred : Cipher.setFullName c s =
        (({ c with algorithmName := [], operationCode := [] } : Cipher
          ).setAlgorithmName a).setOperationCode b := by
      simp [Cipher.setFullName, hsp]
    rw [hred]
    refine ⟨?_, ?_, ?_, ?_⟩
    · rw [(setOperationCode_frame _ b).1, setAlgorithmName_name]
    · rw [setOperationCode_code]
    · rw [(setOperationCode_frame _ b).2.1, (setAlgorithmName_frame _ a).2.1]
    · rw [(setOperationCode_frame _ b).2.2, (setAlgorithmName_frame _ a).2.2]

/-- C7 witness: the amended statement at the concrete input "AES/garbage". -/
theorem C7_setFullName_witness :
    (defCipher.setFullName (strL "AES/garbage")).algorithmName = strL "AES" ∧
    (defCipher.setFullName (strL "AES/garbage")).operationCode = [] := by
  have h := (C7_setFullName defCipher (strL "AES/garbage")).2
    (strL "AES") (strL "garbage") (by decide)
  refine ⟨?_, ?_⟩
  · rw [h.1]; decide
  · rw [h.2.1]; decide

/-- C8 counterexample: `setAlgorithmName "aes"` succeeds case-insensitively
but the getter then returns the lowercase input spelling, not the registry's
canonical spelling "AES" — the getters do not return canonical case. -/
theorem C8_counterexample :
    containsCI AlgorithmNames (strL "aes") = true ∧
    (defCipher.setAlgorithmName (strL "aes")).algorithmName = strL "aes" ∧
    strL "aes" ≠ strL "AES" ∧
    AlgorithmNames.getD
      (algIdx ((defCipher.setAlgorithmName (strL "aes")).algorithm)) [] =
      strL "AES" := by decide

/-- C8 (amended): the name setters accept spellings case-insensitively; a
recognized spelling is stored and returned verbatim by the string getters,
while the enum accessors still resolve to the registry entry whose canonical
name matches the stored spelling case-insensitively; `fullName` concatenates
the two stored spellings around a slash. -/
theorem C8_names_case_insensitive (c : Cipher) (s : QStr) :
    (containsCI AlgorithmNames s = true →
      (c.setAlgorithmName s).algorithmName = s ∧
      (c.setAlgorithmName s).algorithm ≠ Algorithm.UnknownAlgorithm ∧
      ciEqb (AlgorithmNames.getD (algIdx ((c.setAlgorithmName s).algorithm)) [])
        s = true) ∧
    (containsCI OperationCodes s = true →
      (c.setOperationCode s).operationCode = s ∧
      (c.setOperationCode s).operation ≠ Operation.UnknownOperation ∧
      ciEqb (OperationCodes.getD (opIdx ((c.setOperationCode s).operation)) [])
        s = true) ∧
    Cipher.fullName c = c.algorithmName ++ strL "/" ++ c.operationCode := by
  refine ⟨?_, ?_, rfl⟩
  · intro h
    have hname : (c.setAlgorithmName s).algorithmName = s := by
      simp [Cipher.setAlgorithmName, h]
    obtain ⟨i, hsome⟩ :=
      Option.isSome_iff_exists.mp (rlookup_isSome_of_containsCI _ _ h)
    have hlt : i < 9 := by
      have := rlookup_lt AlgorithmNames s i hsome
      simpa [AlgorithmNames] using this
    have halg : (c.setAlgorithmName s).algorithm = algOfIndex i := by
      rw [Cipher.algorithm, hname, hsome]
    have hne : ∀ k, k < 9 → algOfIndex k ≠ Algorithm.UnknownAlgorithm := by
      decide
    have hidx : ∀ k, k < 9 → algIdx (algOfIndex k) = k := by decide
    refine ⟨hname, by rw [halg]; exact hne i hlt, ?_⟩
    rw [halg, hidx i hlt]
    exact rlookup_ciEq _ _ i hsome
  · intro h
    have hname : (c.setOperationCode s).operationCode = s := by
      simp [Cipher.setOperationCode, h]
    obtain ⟨i, hsome⟩ :=
      Option.isSome_iff_exists.mp (rlookup_isSome_of_containsCI _ _ h)
    have hlt : i < 7 := by
      have := rlookup_lt OperationCodes s i hsome
      simpa [OperationCodes] using this
    have hop : (c.setOperationCode s).operation = opOfIndex i := by
      rw [Cipher.operation, hname, hsome]
    have hne : ∀ k, k < 7 → opOfIndex k ≠ Operation.UnknownOperation := by
      decide
    have hidx : ∀ k, k < 7 → opIdx (opOfIndex k) = k := by decide
    refine ⟨hname, by rw [hop]; exact hne i hlt, ?_⟩
    rw [hop, hidx i hlt]
    exact rlookup_ciEq _ _ i hsome

/-- C8 witness: lowercase spellings of registry entries on the default
suite. -/
theorem C8_names_case_insensitive_witness :
    (defCipher.setAlgorithmName (strL "aes")).algorithmName = strL "aes" ∧
    (defCipher.setAlgorithmName (strL "aes")).algorithm ≠
      Algorithm.UnknownAlgorithm ∧
    (defCipher.setOperationCode (strL "gcm")).operation ≠
      Operation.UnknownOperation := by
  have h1 := C8_names_case_insensitive defCipher (strL "aes")
  have h2 := C8_names_case_insensitive defCipher (strL "gcm")
  exact ⟨(h1.1 (by decide)).1, (h1.1 (by decide)).2.1, (h2.2.1 (by decide)).2.1⟩

theorem hexPairs_length : ∀ ds : List Nat, (hexPairs ds).length = ds.length / 2
  | [] => rfl
  | [_] => by simp [hexPairs]
  | h :: l :: rest => by
    rw [hexPairs]
    simp only [List.length_cons, hexPairs_length rest]
    omega

theorem fromHexDigits_length (ds : List Nat) :
    (fromHexDigits ds).length = (ds.length + 1) / 2 := by
  unfold fromHexDigits
  split
  next hodd =>
    cases ds with
    | nil => simp at hodd
    | cons d rest =>
      simp only [List.length_cons, hexPairs_length rest]
      simp only [List.length_cons] at hodd
      omega
  next heven =>
    rw [hexPairs_length]
    omega

theorem fromHexDigits_nil_iff (ds : List Nat) :
    fromHexDigits ds = [] ↔ ds = [] := by
  constructor
  · intro h
    have h2 := congrArg List.length h
    rw [fromHexDigits_length] at h2
    simp at h2
    exact List.length_eq_zero.mp (by omega)
  · intro h
    subst h
    rfl

/-- C9 counterexample: the odd-length hex string "1" decodes to the single
byte 0x01 and is stored, and "0g1" with an invalid character decodes to
0x01 as well — decode failures do not yield an empty stored byte
sequence. -/
theorem C9_counterexample :
    (defCipher.setInitialVectorHex (strL "1")).initialVector = [1] ∧
    ((1 : Nat) :: []) ≠ ([] : Bytes) ∧
    (defCipher.setAuthenticationHex (strL "0g1")).authentication = [1] := by
  decide

/-- C9 (amended): the hex-string setters always store the total decode of
the input — invalid characters are skipped, an odd count of valid hex
digits makes the leading digit a byte of its own, and the stored field is
empty exactly when the input contains no valid hex digit at all. -/
theorem C9_hex_decode (c : Cipher) (s : QStr) :
    (c.setInitialVectorHex s).initialVector = fromHex (toLatin1 s) ∧
    (c.setAuthenticationHex s).authentication = fromHex (toLatin1 s) ∧
    (fromHex (toLatin1 s)).length =
      (((toLatin1 s).filterMap hexVal).length + 1) / 2 ∧
    (fromHex (toLatin1 s) = [] ↔ (toLatin1 s).filterMap hexVal = []) :=
  ⟨rfl, rfl, fromHexDigits_length _, fromHexDigits_nil_iff _⟩

/-- C10: every single-field setter leaves the other three fields unchanged
(the enum setters are considered on the real enum values, where the C++
table lookup is in range). -/
theorem C10_setter_frames (c : Cipher) :
    (∀ a, a ≠ Algorithm.UnknownAlgorithm →
      (c.setAlgorithm a).operationCode = c.operationCode ∧
      (c.setAlgorithm a).initialVector = c.initialVector ∧
      (c.setAlgorithm a).authentication = c.authentication) ∧
    (∀ s, (c.setAlgorithmName s).operationCode = c.operationCode ∧
      (c.setAlgorithmName s).initialVector = c.initialVector ∧
      (c.setAlgorithmName s).authentication = c.authentication) ∧
    (∀ o, o ≠ Operation.UnknownOperation →
      (c.setOperation o).algorithmName = c.algorithmName ∧
      (c.setOperation o).initialVector = c.initialVector ∧
      (c.setOperation o).authentication = c.authentication) ∧
    (∀ s, (c.setOperationCode s).algorithmName = c.algorithmName ∧
      (c.setOperationCode s).initialVector = c.initialVector ∧
      (c.setOperationCode s).authentication = c.authentication) ∧
    (∀ iv, (c.setInitialVector iv).algorithmName = c.algorithmName ∧
      (c.setInitialVector iv).operationCode = c.operationCode ∧
      (c.setInitialVector iv).authentication = c.authentication) ∧
    (∀ s, (c.setInitialVectorHex s).algorithmName = c.algorithmName ∧
      (c.setInitialVectorHex s).operationCode = c.operationCode ∧
      (c.setInitialVectorHex s).authentication = c.authentication) ∧
    (∀ au, (c.setAuthentication au).algorithmName = c.algorithmName ∧
      (c.setAuthentication au).operationCode = c.operationCode ∧
      (c.setAuthentication au).initialVector = c.initialVector) ∧
    (∀ s, (c.setAuthenticationHex s).algorithmName = c.algorithmName ∧
      (c.setAuthenticationHex s).operationCode = c.operationCode ∧
      (c.setAuthenticationHex s).initialVector = c.initialVector) := by
  refine ⟨fun a _ => ⟨rfl, rfl, rfl⟩, fun s => ?_, fun o _ => ⟨rfl, rfl, rfl⟩,
    fun s => ?_, fun iv => ⟨rfl, rfl, rfl⟩, fun s => ⟨rfl, rfl, rfl⟩,
    fun au => ⟨rfl, rfl, rfl⟩, fun s => ⟨rfl, rfl, rfl⟩⟩
  · unfold Cipher.setAlgorithmName
    split <;> exact ⟨rfl, rfl, rfl⟩
  · unfold Cipher.setOperationCode
    split <;> exact ⟨rfl, rfl, rfl⟩

/-- C10 witness: the frame conditions at concrete setter arguments on the
default suite. -/
theorem C10_setter_frames_witness :
    (defCipher.setAlgorithm Algorithm.Blowfish).operationCode =
      defCipher.operationCode ∧
    (defCipher.setOperation Operation.CBC).authentication =
      defCipher.authentication ∧
    (defCipher.setAlgorithmName (strL "idea")).initialVector =
      defCipher.initialVector ∧
    (defCipher.setInitialVector [1, 2]).authentication =
      defCipher.authentication := by
  have h := C10_setter_frames defCipher
  exact ⟨(h.1 Algorithm.Blowfish (by decide)).1,
    (h.2.2.1 Operation.CBC (by decide)).2.2,
    (h.2.1 (strL "idea")).2.1,
    (h.2.2.2.2.1 [1, 2]).2.2⟩

end Qrypto
